import Mathlib

/-!
Verification of the bloomchain indexing engine (`src/chain.rs`).

The chain orchestrates a multi-level bloom aggregation tree.  The chain
code (`BloomChain`) is embedded from `src/chain.rs`; its collaborators
(`PositionManager`, the `Bloom` algebra, `BloomDatabase`) are not part of
the sources, so they are modelled from the specification (sections 3,
4.1, 4.2): the bloom algebra is the lattice of bit sets, a database is a
sparse map from positions to blooms.
-/

namespace BloomChain

/-- Modelled from the spec: a `Bloom` is a fixed-width bit vector, used
by the chain only through `union` (here `∪`), `contains a b` (here
`b ⊆ a`), the all-zero `default` (here `∅`) and equality.  The set of
set bits represents the vector. -/
abbrev Bloom := Finset Nat

/-- Modelled from the spec: a structural key `(level, index)` naming one
slot of the aggregation tree (`Position` in `position.rs`). -/
structure Position where
  level : Nat
  index : Nat
deriving DecidableEq

/-- Modelled from the spec: a sparse read-only database, `bloom_at`
returning a bloom or absence (`BloomDatabase`). -/
abbrev DB := Position → Option Bloom

/-- Modelled from the spec: `PositionManager::level_size`, the number of
Numbers covered by one slot of the given level: `B ^ level`. -/
def level_size (B lvl : Nat) : Nat := B ^ lvl

/-- Modelled from the spec: `PositionManager::position`, the slot at
`lvl` covering Number `n`: index is `n / B ^ lvl`. -/
def position (B n lvl : Nat) : Position := ⟨lvl, n / level_size B lvl⟩

/-- Modelled from the spec: `PositionManager::lower_level_positions`,
the `B` children of a slot at the level below. -/
def lower_level_positions (B : Nat) (p : Position) : List Position :=
  (List.range B).map (fun t => ⟨p.level - 1, p.index * B + t⟩)

/-- Point update on a sparse map: the lookup semantics of
`HashMap::insert` on the diff maps built by the chain. -/
def mapInsert (m : DB) (k : Position) (v : Bloom) : DB :=
  fun p => if p = k then some v else m p

/-- The empty diff map (`HashMap::new`). -/
def emptyMap : DB := fun _ => none

/-- `result.get(&index).cloned().or_else(|| self.db.bloom_at(&index))`:
new blooms in the diff are preferred over database blooms. -/
def lookupOr (m db : DB) (p : Position) : Option Bloom :=
  match m p with
  | some b => some b
  | none => db p

/-- `fold(Bloom::default(), |acc, bloom| acc | bloom)`: the union of a
list of blooms. -/
def unionList (l : List Bloom) : Bloom := l.foldl (fun a b => a ∪ b) ∅

/-- Applying a returned diff map to the database: every entry of the
diff overwrites the stored slot, other slots keep their value. -/
def persist (db diff : DB) : DB :=
  fun p =>
    match diff p with
    | some b => some b
    | none => db p

/-- `BloomChain::blocks` (`chain.rs` lines 28–58): recursive pruning
search.  Absent slot: prune.  Level 0: report the offset iff the stored
bloom contains the query.  Higher level: prune unless the stored bloom
contains the query, else recurse into the children whose index lies in
the query range's child-level index span. -/
def blocks (B : Nat) (db : DB) (rs re : Nat) (q : Bloom) : Nat → Nat → Option (List Nat)
  | 0, offset =>
    match db (position B offset 0) with
    | none => none
    | some lb => if q ⊆ lb then some [offset] else none
  | l + 1, offset =>
    match db (position B offset (l + 1)) with
    | none => none
    | some lb =>
      if q ⊆ lb then
        some (((((lower_level_positions B (position B offset (l + 1))).filter
            (fun li => decide ((position B rs l).index ≤ li.index ∧
              li.index ≤ (position B re l).index))).map
            (fun li => li.index * level_size B l)).filterMap
            (fun off => blocks B db rs re q l off)).flatten)
      else none

/-- `BloomChain::with_bloom` (`chain.rs` lines 118–137): run `blocks`
from the top level over every top-level index covering the range and
concatenate the hits. -/
def with_bloom (B L : Nat) (db : DB) (rs re : Nat) (q : Bloom) : List Nat :=
  let ml := L - 1
  let ls := level_size B ml
  let fp := position B rs ml
  let tp := position B re ml
  ((List.range' fp.index (tp.index + 1 - fp.index)).filterMap
    (fun idx => blocks B db rs re q ml (ls * idx))).flatten

/-- The per-level loop body of `BloomChain::insert`: the bloom recorded
at `position n lvl` is the database bloom there unioned with the new
bloom, or the new bloom alone when the slot is absent. -/
def insertValue (db : DB) (n : Nat) (b : Bloom) (B lvl : Nat) : Bloom :=
  match db (position B n lvl) with
  | some old => old ∪ b
  | none => b

/-- The loop of `BloomChain::insert` over the given list of levels. -/
def insertLevels (B : Nat) (db : DB) (n : Nat) (b : Bloom) : List Nat → DB → DB
  | [], m => m
  | lvl :: ls, m =>
    insertLevels B db n b ls (mapInsert m (position B n lvl) (insertValue db n b B lvl))

/-- `BloomChain::insert` (`chain.rs` lines 61–75): for every level in
`0..L` record at `position n level` the union of the stored bloom (or
default) with the inserted bloom. -/
def insert (B L : Nat) (db : DB) (n : Nat) (b : Bloom) : DB :=
  insertLevels B db n b (List.range L) emptyMap

/-- Phase 1 of `BloomChain::replace`: insert the new blooms at level 0,
`blooms[i]` at `position (rs + i) 0` (the `enumerate` loop). -/
def insertBlooms (B rs : Nat) : Nat → List Bloom → DB → DB
  | _, [], m => m
  | i, b :: bs, m => insertBlooms B rs (i + 1) bs (mapInsert m (position B (rs + i) 0) b)

/-- Phase 2 of `BloomChain::replace`: reset the level-0 slots of the
given numbers to the default bloom. -/
def resetNumbers (B : Nat) : List Nat → DB → DB
  | [], m => m
  | n :: ns, m => resetNumbers B ns (mapInsert m (position B n 0) ∅)

/-- The recomputed ancestor bloom in phase 3 of `BloomChain::replace`:
the union over the children of `p` of the child bloom picked from the
diff being built when present there, else from the database. -/
def levelValue (B : Nat) (db m : DB) (p : Position) : Bloom :=
  unionList ((lower_level_positions B p).filterMap (lookupOr m db))

/-- The inner loop of phase 3 of `BloomChain::replace` at one level:
for each listed `i`, recompute the slot covering `rs + i` as the union
of its children. -/
def insertAtLevel (B : Nat) (db : DB) (rs lvl : Nat) : List Nat → DB → DB
  | [], m => m
  | i :: is, m =>
    insertAtLevel B db rs lvl is
      (mapInsert m (position B (rs + i) lvl)
        (levelValue B db m (position B (rs + i) lvl)))

/-- The outer loop of phase 3 of `BloomChain::replace` over the listed
levels. -/
def replaceLevels (B : Nat) (db : DB) (rs len : Nat) : List Nat → DB → DB
  | [], m => m
  | lvl :: ls, m => replaceLevels B db rs len ls (insertAtLevel B db rs lvl (List.range len) m)

/-- `BloomChain::replace` (`chain.rs` lines 80–115): insert the new
blooms at level 0, reset the rest of the range at level 0, then for
levels `1..L` recompute the ancestors of the inserted numbers only. -/
def replace (B L : Nat) (db : DB) (rs re : Nat) (blooms : List Bloom) : DB :=
  replaceLevels B db rs blooms.length (List.range' 1 (L - 1))
    (resetNumbers B (List.range' (rs + blooms.length) (re + 1 - (rs + blooms.length)))
      (insertBlooms B rs 0 blooms emptyMap))

/-- `BloomChain::filter` (`chain.rs` lines 140–151): union the results
of `with_bloom` over all candidate blooms into a set, then sort. -/
def filter (B L : Nat) (db : DB) (rs re : Nat) (blooms : List Bloom) : List Nat :=
  ((blooms.flatMap (fun b => with_bloom B L db rs re b)).toFinset).sort (· ≤ ·)

/-- The union of the stored blooms of all children of a slot, an absent
child counting as the default bloom (the right-hand side of the
aggregation invariant of spec section 3). -/
def childUnionAll (B : Nat) (db : DB) (p : Position) : Bloom :=
  unionList ((lower_level_positions B p).map (fun c => (db c).getD ∅))

/-- The aggregation invariant (spec section 3): every present slot at a
level `1 ≤ l < L` stores exactly the union of its children's stored
blooms, an absent child counting as the default bloom. -/
def aggInv (B L : Nat) (db : DB) : Prop :=
  ∀ l j, 1 ≤ l → l < L → (db ⟨l, j⟩).isSome →
    db ⟨l, j⟩ = some (childUnionAll B db ⟨l, j⟩)

/-- Parent closure of a database: whenever a slot below the top level is
present, the slot covering it at the next level up is present too. -/
def parentClosed (B L : Nat) (db : DB) : Prop :=
  ∀ l j, l + 1 < L → (db ⟨l, j⟩).isSome → (db ⟨l + 1, j / B⟩).isSome

/-- Runs each listed child computation, failing (fuel exhaustion) as
soon as one of them fails. -/
def collectFuel (f : Nat → Option (Option (List Nat))) : List Nat → Option (List (Option (List Nat)))
  | [] => some []
  | o :: os =>
    match f o with
    | none => none
    | some r =>
      match collectFuel f os with
      | none => none
      | some rest => some (r :: rest)

/-- Fuel-indexed variant of `blocks`: `none` when the fuel runs out
before the recursion bottoms, `some r` when the recursion completes with
result `r`. -/
def blocksFuel (B : Nat) (db : DB) (rs re : Nat) (q : Bloom) :
    Nat → Nat → Nat → Option (Option (List Nat))
  | 0, _, _ => none
  | _ + 1, 0, offset =>
    match db (position B offset 0) with
    | none => some none
    | some lb => some (if q ⊆ lb then some [offset] else none)
  | fuel + 1, l + 1, offset =>
    match db (position B offset (l + 1)) with
    | none => some none
    | some lb =>
      if q ⊆ lb then
        (collectFuel (fun off => blocksFuel B db rs re q fuel l off)
          ((((lower_level_positions B (position B offset (l + 1))).filter
            (fun li => decide ((position B rs l).index ≤ li.index ∧
              li.index ≤ (position B re l).index))).map
            (fun li => li.index * level_size B l)))).map
          (fun res => some ((res.filterMap id).flatten))
      else some none

/-! ### Generic lemmas about the building blocks -/

theorem mem_foldl_union (f : α → Bloom) (l : List α) (a : Bloom) (x : Nat) :
    x ∈ l.foldl (fun acc c => acc ∪ f c) a ↔ x ∈ a ∨ ∃ c ∈ l, x ∈ f c := by
  induction l generalizing a with
  | nil => simp
  | cons c cs ih =>
    simp only [List.foldl_cons, ih, Finset.mem_union, List.mem_cons]
    constructor
    · rintro ((h | h) | ⟨d, hd, hx⟩)
      · exact Or.inl h
      · exact Or.inr ⟨c, Or.inl rfl, h⟩
      · exact Or.inr ⟨d, Or.inr hd, hx⟩
    · rintro (h | ⟨d, hd | hd, hx⟩)
      · exact Or.inl (Or.inl h)
      · subst hd; exact Or.inl (Or.inr hx)
      · exact Or.inr ⟨d, hd, hx⟩

theorem mem_unionList (l : List Bloom) (x : Nat) :
    x ∈ unionList l ↔ ∃ b ∈ l, x ∈ b := by
  have : unionList l = l.foldl (fun acc c => acc ∪ id c) ∅ := rfl
  rw [this, mem_foldl_union]
  simp

theorem mapInsert_self (m : DB) (k : Position) (v : Bloom) : mapInsert m k v k = some v := by
  simp [mapInsert]

theorem mapInsert_other (m : DB) (k : Position) (v : Bloom) (p : Position) (h : p ≠ k) :
    mapInsert m k v p = m p := by
  simp [mapInsert, h]

theorem position_level (B n lvl : Nat) : (position B n lvl).level = lvl := rfl

theorem position_index (B n lvl : Nat) : (position B n lvl).index = n / B ^ lvl := rfl

theorem position_zero (B n : Nat) : position B n 0 = ⟨0, n⟩ := by
  simp [position, level_size]

theorem position_zero_inj (B x y : Nat) (h : position B x 0 = position B y 0) : x = y := by
  rw [position_zero, position_zero] at h
  exact congrArg Position.index h

theorem mem_lower_level_positions (B : Nat) (p c : Position) :
    c ∈ lower_level_positions B p ↔ ∃ t < B, c = ⟨p.level - 1, p.index * B + t⟩ := by
  simp only [lower_level_positions, List.mem_map, List.mem_range]
  constructor
  · rintro ⟨t, ht, rfl⟩; exact ⟨t, ht, rfl⟩
  · rintro ⟨t, ht, rfl⟩; exact ⟨t, ht, rfl⟩

theorem div_between (d a b j : Nat) (hd : 1 ≤ d) (hab : a ≤ b)
    (h1 : a / d ≤ j) (h2 : j ≤ b / d) : ∃ m, a ≤ m ∧ m ≤ b ∧ m / d = j := by
  rcases le_or_lt a (j * d) with hle | hlt
  · refine ⟨j * d, hle, ?_, ?_⟩
    · calc j * d ≤ b / d * d := Nat.mul_le_mul_right d h2
        _ ≤ b := Nat.div_mul_le_self b d
    · exact Nat.mul_div_cancel j hd
  · refine ⟨a, le_refl a, hab, ?_⟩
    have hj : j ≤ a / d := (Nat.le_div_iff_mul_le hd).2 (Nat.le_of_lt hlt)
    omega

theorem div_eq_iff_bounds (B c j : Nat) (hB : 1 ≤ B) :
    c / B = j ↔ j * B ≤ c ∧ c < j * B + B := by
  constructor
  · rintro rfl
    have h1 : c / B * B + c % B = c := Nat.div_add_mod' c B
    have h2 := Nat.mod_lt c hB
    omega
  · rintro ⟨h1, h2⟩
    refine Nat.div_eq_of_lt_le h1 ?_
    have : (j + 1) * B = j * B + B := by ring
    omega

theorem div_pow_succ (B n l : Nat) : n / B ^ l / B = n / B ^ (l + 1) := by
  rw [Nat.div_div_eq_div_mul, pow_succ]

theorem mem_getD_nil (o : Option (List Nat)) (n : Nat) :
    n ∈ o.getD [] ↔ ∃ r, o = some r ∧ n ∈ r := by
  cases o <;> simp

theorem mem_range_sub (s e idx : Nat) :
    idx ∈ List.range' s (e - s) ↔ s ≤ idx ∧ idx < e := by
  rw [List.mem_range'_1]
  omega

/-! ### Characterizing the diff map returned by `insert` -/

theorem insertLevels_frame (B : Nat) (db : DB) (n : Nat) (b : Bloom) (ls : List Nat)
    (m : DB) (p : Position) (h : ∀ lvl ∈ ls, p ≠ position B n lvl) :
    insertLevels B db n b ls m p = m p := by
  induction ls generalizing m with
  | nil => rfl
  | cons lvl rest ih =>
    rw [insertLevels, ih _ (fun l hl => h l (List.mem_cons_of_mem lvl hl)),
      mapInsert_other _ _ _ _ (h lvl (List.mem_cons_self lvl rest))]

theorem insertLevels_hit (B : Nat) (db : DB) (n : Nat) (b : Bloom) (ls : List Nat)
    (m : DB) (lvl : Nat) (h : lvl ∈ ls) :
    insertLevels B db n b ls m (position B n lvl) = some (insertValue db n b B lvl) := by
  induction ls generalizing m with
  | nil => cases h
  | cons l0 rest ih =>
    rcases List.mem_cons.1 h with rfl | hmem
    · by_cases hr : lvl ∈ rest
      · exact ih _ hr
      · rw [insertLevels, insertLevels_frame]
        · exact mapInsert_self _ _ _
        · intro l' hl' heq
          have hlv : lvl = l' := congrArg Position.level heq
          subst hlv
          exact hr hl'
    · exact ih _ hmem

theorem insert_hit (B L : Nat) (db : DB) (n : Nat) (b : Bloom) (lvl : Nat) (h : lvl < L) :
    insert B L db n b (position B n lvl) = some (insertValue db n b B lvl) :=
  insertLevels_hit B db n b _ emptyMap lvl (List.mem_range.2 h)

theorem insert_frame (B L : Nat) (db : DB) (n : Nat) (b : Bloom) (p : Position)
    (h : ∀ lvl < L, p ≠ position B n lvl) :
    insert B L db n b p = none :=
  insertLevels_frame B db n b _ emptyMap p (fun lvl hl => h lvl (List.mem_range.1 hl))

/-! ### Characterizing the diff map returned by `replace` -/

theorem insertBlooms_frame (B rs : Nat) (i0 : Nat) (bs : List Bloom) (m : DB) (p : Position)
    (h : ∀ k < bs.length, p ≠ position B (rs + (i0 + k)) 0) :
    insertBlooms B rs i0 bs m p = m p := by
  induction bs generalizing i0 m with
  | nil => rfl
  | cons b rest ih =>
    rw [insertBlooms, ih (i0 + 1) _ (fun k hk => by
      have := h (k + 1) (by simpa using Nat.succ_lt_succ hk)
      simpa [Nat.add_assoc, Nat.add_comm 1 k] using this),
      mapInsert_other]
    have := h 0 (Nat.succ_le_succ (Nat.zero_le _))
    simpa using this

theorem insertBlooms_hit (B rs : Nat) (i0 : Nat) (bs : List Bloom) (m : DB) (k : Nat)
    (hk : k < bs.length) :
    insertBlooms B rs i0 bs m (position B (rs + (i0 + k)) 0) = some (bs.getD k ∅) := by
  induction bs generalizing i0 m k with
  | nil => cases hk
  | cons b rest ih =>
    cases k with
    | zero =>
      rw [insertBlooms, insertBlooms_frame]
      · simpa using mapInsert_self m (position B (rs + i0) 0) b
      · intro k' hk' heq
        have := position_zero_inj _ _ _ heq
        omega
    | succ k' =>
      have : rs + (i0 + (k' + 1)) = rs + (i0 + 1 + k') := by omega
      rw [insertBlooms, this]
      exact ih (i0 + 1) _ k' (by simpa using Nat.lt_of_succ_lt_succ hk)

theorem resetNumbers_frame (B : Nat) (ns : List Nat) (m : DB) (p : Position)
    (h : ∀ x ∈ ns, p ≠ position B x 0) :
    resetNumbers B ns m p = m p := by
  induction ns generalizing m with
  | nil => rfl
  | cons x rest ih =>
    rw [resetNumbers, ih _ (fun y hy => h y (List.mem_cons_of_mem x hy)),
      mapInsert_other _ _ _ _ (h x (List.mem_cons_self x rest))]

theorem resetNumbers_hit (B : Nat) (ns : List Nat) (m : DB) (x : Nat) (h : x ∈ ns) :
    resetNumbers B ns m (position B x 0) = some ∅ := by
  induction ns generalizing m with
  | nil => cases h
  | cons y rest ih =>
    rcases List.mem_cons.1 h with rfl | hmem
    · by_cases hr : x ∈ rest
      · exact ih _ hr
      · rw [resetNumbers, resetNumbers_frame]
        · exact mapInsert_self _ _ _
        · intro y' hy' heq
          have := position_zero_inj _ _ _ heq
          subst this
          exact hr hy'
    · exact ih _ hmem

/-- The level-0 rows of the diff after the first two phases of
`replace`: new blooms on `[rs, rs + len)`, the default bloom on
`[rs + len, re + 1)`, nothing elsewhere. -/
theorem replace_phase12_low (B rs re : Nat) (blooms : List Bloom) (j : Nat) :
    resetNumbers B (List.range' (rs + blooms.length) (re + 1 - (rs + blooms.length)))
      (insertBlooms B rs 0 blooms emptyMap) ⟨0, j⟩ =
    if rs ≤ j ∧ j < rs + blooms.length then some (blooms.getD (j - rs) ∅)
    else if rs + blooms.length ≤ j ∧ j < re + 1 then some ∅
    else none := by
  by_cases hres : rs + blooms.length ≤ j ∧ j < re + 1
  · have hj : (⟨0, j⟩ : Position) = position B j 0 := (position_zero B j).symm
    rw [hj, resetNumbers_hit _ _ _ _ (by rw [mem_range_sub]; omega)]
    have hnotlow : ¬(rs ≤ j ∧ j < rs + blooms.length) := by omega
    simp [hnotlow, hres]
  · rw [resetNumbers_frame _ _ _ _ (fun x hx heq => by
      rw [mem_range_sub] at hx
      rw [position_zero] at heq
      have : j = x := congrArg Position.index heq
      omega)]
    by_cases hlow : rs ≤ j ∧ j < rs + blooms.length
    · have hj : (⟨0, j⟩ : Position) = position B (rs + (0 + (j - rs))) 0 := by
        rw [position_zero]
        congr 1
        omega
      rw [hj, insertBlooms_hit _ _ _ _ _ _ (by omega)]
      simp [hlow]
    · rw [insertBlooms_frame _ _ _ _ _ _ (fun k hk heq => by
        rw [position_zero] at heq
        have : j = rs + (0 + k) := congrArg Position.index heq
        omega)]
      simp [hlow, hres, emptyMap]

/-- After the first two phases of `replace` no row above level 0 is
present. -/
theorem replace_phase12_high (B rs re : Nat) (blooms : List Bloom) (l j : Nat) :
    resetNumbers B (List.range' (rs + blooms.length) (re + 1 - (rs + blooms.length)))
      (insertBlooms B rs 0 blooms emptyMap) ⟨l + 1, j⟩ = none := by
  rw [resetNumbers_frame _ _ _ _ (fun x hx heq => by
      rw [position_zero] at heq
      exact Nat.succ_ne_zero l (congrArg Position.level heq)),
    insertBlooms_frame _ _ _ _ _ _ (fun k hk heq => by
      rw [position_zero] at heq
      exact Nat.succ_ne_zero l (congrArg Position.level heq))]
  rfl

theorem levelValue_congr (B : Nat) (db m m' : DB) (p : Position)
    (h : ∀ c ∈ lower_level_positions B p, m c = m' c) :
    levelValue B db m p = levelValue B db m' p := by
  unfold levelValue
  congr 1
  apply List.filterMap_congr
  intro c hc
  unfold lookupOr
  rw [h c hc]

/-- The inner loop of phase 3 at one level: it only writes rows of that
level, and a row `⟨lvl, j⟩` ends up recomputed (as the child union of
the map at entry of the level) exactly when `j` covers one of the listed
indices. -/
theorem insertAtLevel_char (B : Nat) (db : DB) (rs lvl : Nat) (hlvl : 1 ≤ lvl) (m0 : DB) :
    ∀ (is : List Nat) (m : DB), (∀ p, p.level ≠ lvl → m p = m0 p) →
      (∀ p, p.level ≠ lvl → insertAtLevel B db rs lvl is m p = m p) ∧
      (∀ j, insertAtLevel B db rs lvl is m ⟨lvl, j⟩ =
        if ∃ i ∈ is, (rs + i) / B ^ lvl = j then some (levelValue B db m0 ⟨lvl, j⟩)
        else m ⟨lvl, j⟩) := by
  intro is
  induction is with
  | nil =>
    intro m hagree
    refine ⟨fun p _ => rfl, fun j => ?_⟩
    simp [insertAtLevel]
  | cons i rest ih =>
    intro m hagree
    set key : Position := position B (rs + i) lvl with hkey
    have hkeylevel : key.level = lvl := rfl
    have hchild : ∀ c ∈ lower_level_positions B key, m c = m0 c := by
      intro c hc
      rcases (mem_lower_level_positions B key c).1 hc with ⟨t, ht, rfl⟩
      exact hagree _ (by simp [hkeylevel]; omega)
    have hval : levelValue B db m key = levelValue B db m0 key :=
      levelValue_congr B db m m0 key hchild
    have hagree' : ∀ p, p.level ≠ lvl → mapInsert m key (levelValue B db m key) p = m0 p := by
      intro p hp
      rw [mapInsert_other _ _ _ _ (fun hpk => hp (by rw [hpk]; exact hkeylevel)), hagree p hp]
    obtain ⟨iha, ihb⟩ := ih (mapInsert m key (levelValue B db m key)) hagree'
    constructor
    · intro p hp
      rw [insertAtLevel, iha p hp, mapInsert_other _ _ _ _ (fun hpk => hp (by rw [hpk]; exact hkeylevel))]
    · intro j
      rw [insertAtLevel, ihb j]
      by_cases hrest : ∃ i' ∈ rest, (rs + i') / B ^ lvl = j
      · have hcons : ∃ i' ∈ i :: rest, (rs + i') / B ^ lvl = j := by
          rcases hrest with ⟨i', hi', hj⟩
          exact ⟨i', List.mem_cons_of_mem i hi', hj⟩
        simp only [if_pos hrest, if_pos hcons]
      · by_cases hhead : (rs + i) / B ^ lvl = j
        · have hcons : ∃ i' ∈ i :: rest, (rs + i') / B ^ lvl = j :=
            ⟨i, List.mem_cons_self i rest, hhead⟩
          have hjkey : (⟨lvl, j⟩ : Position) = key := by
            rw [hkey]
            unfold position level_size
            rw [hhead]
          rw [if_neg hrest, if_pos hcons, hjkey, mapInsert_self, hval]
        · have hcons : ¬∃ i' ∈ i :: rest, (rs + i') / B ^ lvl = j := by
            rintro ⟨i', hi', hj⟩
            rcases List.mem_cons.1 hi' with rfl | hi'
            · exact hhead hj
            · exact hrest ⟨i', hi', hj⟩
          rw [if_neg hrest, if_neg hcons, mapInsert_other]
          intro hpk
          apply hhead
          have := congrArg Position.index hpk
          simpa [position, level_size] using this.symm

/-- The outer loop of phase 3, run over the levels `d+1, …, d+c` on a
map holding nothing above level `d`: rows at levels at most `d` are kept,
rows above `d+c` stay absent, and a row at a level in between is present
exactly when its index covers an inserted number, holding the child
union taken against the final map. -/
theorem replaceLevels_char (B : Nat) (db : DB) (rs len : Nat) :
    ∀ (c d : Nat) (m : DB), (∀ l j, d < l → m ⟨l, j⟩ = none) →
      (∀ p, p.level ≤ d → replaceLevels B db rs len (List.range' (d + 1) c) m p = m p) ∧
      (∀ l j, d + c < l → replaceLevels B db rs len (List.range' (d + 1) c) m ⟨l, j⟩ = none) ∧
      (∀ l, d + 1 ≤ l → l ≤ d + c → ∀ j,
        replaceLevels B db rs len (List.range' (d + 1) c) m ⟨l, j⟩ =
          if ∃ i < len, (rs + i) / B ^ l = j
          then some (levelValue B db (replaceLevels B db rs len (List.range' (d + 1) c) m) ⟨l, j⟩)
          else none) := by
  intro c
  induction c with
  | zero =>
    intro d m hhigh
    refine ⟨fun p _ => rfl, fun l j hl => hhigh l j (by omega), fun l hl1 hl2 => ?_⟩
    omega
  | succ c ih =>
    intro d m hhigh
    rw [List.range'_succ]
    set m1 : DB := insertAtLevel B db rs (d + 1) (List.range len) m with hm1
    have hagree : ∀ p, p.level ≠ d + 1 → m p = m p := fun _ _ => rfl
    obtain ⟨ia, ib⟩ := insertAtLevel_char B db rs (d + 1) (by omega) m (List.range len) m hagree
    have hhigh1 : ∀ l j, d + 1 < l → m1 ⟨l, j⟩ = none := by
      intro l j hl
      rw [hm1, ia ⟨l, j⟩ (by simpa using by omega)]
      exact hhigh l j (by omega)
    obtain ⟨i1, i2, i3⟩ := ih (d + 1) m1 hhigh1
    have hstep : replaceLevels B db rs len ((d + 1) :: List.range' (d + 1 + 1) c) m =
        replaceLevels B db rs len (List.range' (d + 1 + 1) c) m1 := rfl
    refine ⟨?_, ?_, ?_⟩
    · intro p hp
      rw [hstep, i1 p (by omega), hm1, ia p (by omega)]
    · intro l j hl
      rw [hstep]
      exact i2 l j (by omega)
    · intro l hl1 hl2 j
      rcases Nat.lt_or_ge (d + 1) l with hcase | hcase
      · rw [hstep]
        exact i3 l (by omega) (by omega) j
      · have hld : l = d + 1 := by omega
        subst hld
        rw [hstep, i1 ⟨d + 1, j⟩ (by simp), hm1, ib j]
        have hmnone : m ⟨d + 1, j⟩ = none := hhigh (d + 1) j (by omega)
        have hval : levelValue B db m ⟨d + 1, j⟩ =
            levelValue B db (replaceLevels B db rs len (List.range' (d + 1 + 1) c) m1) ⟨d + 1, j⟩ := by
          apply levelValue_congr
          intro ch hch
          rcases (mem_lower_level_positions B _ ch).1 hch with ⟨t, ht, rfl⟩
          rw [i1 _ (by simp), hm1, ia _ (by simp)]
        by_cases hcov : ∃ i ∈ List.range len, (rs + i) / B ^ (d + 1) = j
        · have hcov' : ∃ i < len, (rs + i) / B ^ (d + 1) = j := by
            rcases hcov with ⟨i, hi, hij⟩
            exact ⟨i, List.mem_range.1 hi, hij⟩
          rw [if_pos hcov, if_pos hcov', hval]
        · have hcov' : ¬∃ i < len, (rs + i) / B ^ (d + 1) = j := by
            rintro ⟨i, hi, hij⟩
            exact hcov ⟨i, List.mem_range.2 hi, hij⟩
          rw [if_neg hcov, if_neg hcov', hmnone]

theorem replace_phase12_high' (B rs re : Nat) (blooms : List Bloom) :
    ∀ l j, 0 < l →
      resetNumbers B (List.range' (rs + blooms.length) (re + 1 - (rs + blooms.length)))
        (insertBlooms B rs 0 blooms emptyMap) ⟨l, j⟩ = none := by
  intro l j hl
  cases l with
  | zero => omega
  | succ l => exact replace_phase12_high B rs re blooms l j

/-- A level-0 row of the diff returned by `replace`: the new bloom on
the inserted span, the default bloom on the reset span, absent
elsewhere. -/
theorem replace_low (B L : Nat) (db : DB) (rs re : Nat) (blooms : List Bloom) (j : Nat) :
    replace B L db rs re blooms ⟨0, j⟩ =
      if rs ≤ j ∧ j < rs + blooms.length then some (blooms.getD (j - rs) ∅)
      else if rs + blooms.length ≤ j ∧ j < re + 1 then some ∅
      else none := by
  obtain ⟨i1, _, _⟩ := replaceLevels_char B db rs blooms.length (L - 1) 0 _
    (replace_phase12_high' B rs re blooms)
  rw [replace, i1 ⟨0, j⟩ (by simp), replace_phase12_low]

/-- The diff returned by `replace` has no rows at or above the level
count. -/
theorem replace_none_top (B L : Nat) (db : DB) (rs re : Nat) (blooms : List Bloom)
    (l j : Nat) (hl : L - 1 < l) :
    replace B L db rs re blooms ⟨l, j⟩ = none := by
  obtain ⟨_, i2, _⟩ := replaceLevels_char B db rs blooms.length (L - 1) 0 _
    (replace_phase12_high' B rs re blooms)
  rw [replace]
  exact i2 l j (by omega)

/-- A row of the diff returned by `replace` at a level `1 ≤ l ≤ L - 1`
whose index covers no inserted number is absent. -/
theorem replace_none_uncovered (B L : Nat) (db : DB) (rs re : Nat) (blooms : List Bloom)
    (l j : Nat) (hl1 : 1 ≤ l) (hl2 : l ≤ L - 1)
    (hcov : ¬∃ i < blooms.length, (rs + i) / B ^ l = j) :
    replace B L db rs re blooms ⟨l, j⟩ = none := by
  obtain ⟨_, _, i3⟩ := replaceLevels_char B db rs blooms.length (L - 1) 0 _
    (replace_phase12_high' B rs re blooms)
  rw [replace, i3 l (by omega) (by omega) j, if_neg]
  exact hcov

/-- A row of the diff returned by `replace` at a level `1 ≤ l ≤ L - 1`
whose index covers an inserted number holds the union of its children's
blooms, a child taken from the diff itself when present there, else from
the database. -/
theorem replace_some_covered (B L : Nat) (db : DB) (rs re : Nat) (blooms : List Bloom)
    (l j : Nat) (hl1 : 1 ≤ l) (hl2 : l ≤ L - 1)
    (hcov : ∃ i < blooms.length, (rs + i) / B ^ l = j) :
    replace B L db rs re blooms ⟨l, j⟩ =
      some (levelValue B db (replace B L db rs re blooms) ⟨l, j⟩) := by
  obtain ⟨_, _, i3⟩ := replaceLevels_char B db rs blooms.length (L - 1) 0 _
    (replace_phase12_high' B rs re blooms)
  rw [replace, i3 l (by omega) (by omega) j, if_pos hcov]

/-! ### Membership in the results of the pruning search -/

theorem mem_blocks_zero (B : Nat) (db : DB) (rs re : Nat) (q : Bloom) (o n : Nat) :
    n ∈ (blocks B db rs re q 0 o).getD [] ↔
      ∃ lb, db (position B o 0) = some lb ∧ q ⊆ lb ∧ n = o := by
  rw [blocks]
  cases hdb : db (position B o 0) with
  | none => simp
  | some lb =>
    by_cases hq : q ⊆ lb
    · simp [hq]
    · simp [hq]

theorem mem_blocks_succ (B : Nat) (db : DB) (rs re : Nat) (q : Bloom) (l o n : Nat) :
    n ∈ (blocks B db rs re q (l + 1) o).getD [] ↔
      ∃ lb, db (position B o (l + 1)) = some lb ∧ q ⊆ lb ∧
        ∃ t < B, rs / B ^ l ≤ o / B ^ (l + 1) * B + t ∧
          o / B ^ (l + 1) * B + t ≤ re / B ^ l ∧
          n ∈ (blocks B db rs re q l ((o / B ^ (l + 1) * B + t) * B ^ l)).getD [] := by
  rw [blocks]
  cases hdb : db (position B o (l + 1)) with
  | none => simp
  | some lb =>
    by_cases hq : q ⊆ lb
    · simp only [hq, if_true, Option.getD_some, List.mem_flatten, List.mem_filterMap,
        List.mem_map, List.mem_filter, lower_level_positions, List.mem_range,
        position_index, position_level, level_size, decide_eq_true_eq]
      constructor
      · rintro ⟨r, ⟨off, ⟨li, ⟨⟨t, ht, rfl⟩, hpred⟩, rfl⟩, hbl⟩, hn⟩
        refine ⟨lb, rfl, hq, t, ht, ?_, ?_, ?_⟩
        · simpa using hpred.1
        · simpa using hpred.2
        · simp only [mem_getD_nil]
          exact ⟨r, hbl, hn⟩
      · rintro ⟨lb', hlb', hq', t, ht, h1, h2, hn⟩
        rw [mem_getD_nil] at hn
        rcases hn with ⟨r, hbl, hnr⟩
        exact ⟨r, ⟨(o / B ^ (l + 1) * B + t) * B ^ l,
          ⟨⟨l + 1 - 1, o / B ^ (l + 1) * B + t⟩, ⟨⟨t, ht, rfl⟩, by simpa using ⟨h1, h2⟩⟩, rfl⟩,
          hbl⟩, hnr⟩
    · simp [hq]

theorem mem_with_bloom (B L : Nat) (db : DB) (rs re : Nat) (q : Bloom) (n : Nat) :
    n ∈ with_bloom B L db rs re q ↔
      ∃ idx, rs / B ^ (L - 1) ≤ idx ∧ idx < re / B ^ (L - 1) + 1 ∧
        n ∈ (blocks B db rs re q (L - 1) (B ^ (L - 1) * idx)).getD [] := by
  unfold with_bloom
  simp only [List.mem_flatten, List.mem_filterMap, position_index, level_size,
    mem_range_sub]
  constructor
  · rintro ⟨r, ⟨idx, ⟨h1, h2⟩, hbl⟩, hn⟩
    exact ⟨idx, h1, h2, by rw [mem_getD_nil]; exact ⟨r, hbl, hn⟩⟩
  · rintro ⟨idx, h1, h2, hn⟩
    rw [mem_getD_nil] at hn
    rcases hn with ⟨r, hbl, hnr⟩
    exact ⟨r, ⟨idx, ⟨h1, h2⟩, hbl⟩, hnr⟩

/-- Every offset reported from a level-0 call is the offset of that
call; every offset reported from a higher-level call lies in the query
range (the child filter at level 0 enforces it). -/
theorem blocks_range_aux (B : Nat) (db : DB) (rs re : Nat) (q : Bloom) :
    ∀ l o n, n ∈ (blocks B db rs re q l o).getD [] →
      (l = 0 → n = o) ∧ (1 ≤ l → rs ≤ n ∧ n ≤ re) := by
  intro l
  induction l with
  | zero =>
    intro o n hn
    rw [mem_blocks_zero] at hn
    rcases hn with ⟨lb, _, _, rfl⟩
    exact ⟨fun _ => rfl, fun h => by omega⟩
  | succ l ih =>
    intro o n hn
    rw [mem_blocks_succ] at hn
    rcases hn with ⟨lb, _, _, t, ht, h1, h2, hn⟩
    obtain ⟨hz, hpos⟩ := ih _ _ hn
    refine ⟨fun h => by omega, fun _ => ?_⟩
    cases l with
    | zero =>
      have hno := hz rfl
      simp only [pow_zero, pow_one, mul_one, Nat.div_one, Nat.zero_add] at hno h1 h2
      omega
    | succ l' => exact hpos (by omega)

/-- Every reported offset descends through a present, query-containing
slot at each level of its path: the slot covering it at every level at
most the call level is present and contains the query bloom. -/
theorem blocks_path_aux (B : Nat) (db : DB) (rs re : Nat) (q : Bloom) (hB : 1 ≤ B) :
    ∀ l o n, n ∈ (blocks B db rs re q l o).getD [] →
      n / B ^ l = o / B ^ l ∧ ∀ l' ≤ l, ∃ s, db ⟨l', n / B ^ l'⟩ = some s ∧ q ⊆ s := by
  intro l
  induction l with
  | zero =>
    intro o n hn
    rw [mem_blocks_zero] at hn
    rcases hn with ⟨lb, hdb, hq, rfl⟩
    refine ⟨rfl, fun l' hl' => ?_⟩
    have hl0 : l' = 0 := by omega
    subst hl0
    exact ⟨lb, hdb, hq⟩
  | succ l ih =>
    intro o n hn
    rw [mem_blocks_succ] at hn
    rcases hn with ⟨lb, hdb, hq, t, ht, h1, h2, hn⟩
    obtain ⟨hdiv, hpath⟩ := ih _ _ hn
    have hpow : 0 < B ^ l := Nat.pos_pow_of_pos l hB
    have hci : n / B ^ l = o / B ^ (l + 1) * B + t := by
      rw [hdiv, Nat.mul_div_cancel _ hpow]
    have hdivsucc : n / B ^ (l + 1) = o / B ^ (l + 1) := by
      rw [← div_pow_succ, hci]
      rw [div_eq_iff_bounds B _ _ hB]
      omega
    refine ⟨hdivsucc, fun l' hl' => ?_⟩
    rcases Nat.lt_or_ge l' (l + 1) with hlt | hge
    · exact hpath l' (by omega)
    · have : l' = l + 1 := by omega
      subst this
      rw [hdivsucc]
      exact ⟨lb, hdb, hq⟩

/-! ### The round trip through a persisted `replace` diff -/

theorem persist_eq_lookupOr (db diff : DB) (p : Position) :
    persist db diff p = lookupOr diff db p := rfl

/-- After persisting a `replace` diff, the slot covering an inserted
number at any level holds a bloom containing that number's new bloom. -/
theorem replace_value_contains (B L : Nat) (db : DB) (rs re : Nat) (blooms : List Bloom)
    (hB : 1 ≤ B) :
    ∀ l, l < L → ∀ i, i < blooms.length →
      ∃ bl, persist db (replace B L db rs re blooms) ⟨l, (rs + i) / B ^ l⟩ = some bl ∧
        blooms.getD i ∅ ⊆ bl := by
  intro l
  induction l with
  | zero =>
    intro hL i hi
    have hidx : (rs + i) / B ^ 0 = rs + i := by rw [pow_zero, Nat.div_one]
    have hdiff : replace B L db rs re blooms ⟨0, rs + i⟩ = some (blooms.getD i ∅) := by
      rw [replace_low, if_pos (by omega)]
      congr 1
      congr 1
      omega
    refine ⟨blooms.getD i ∅, ?_, subset_refl _⟩
    rw [hidx, persist_eq_lookupOr]
    unfold lookupOr
    rw [hdiff]
  | succ l ih =>
    intro hL i hi
    set diff := replace B L db rs re blooms with hd
    have hcov : ∃ i' < blooms.length, (rs + i') / B ^ (l + 1) = (rs + i) / B ^ (l + 1) :=
      ⟨i, hi, rfl⟩
    have hdiff : diff ⟨l + 1, (rs + i) / B ^ (l + 1)⟩ =
        some (levelValue B db diff ⟨l + 1, (rs + i) / B ^ (l + 1)⟩) :=
      replace_some_covered B L db rs re blooms (l + 1) _ (by omega) (by omega) hcov
    refine ⟨levelValue B db diff ⟨l + 1, (rs + i) / B ^ (l + 1)⟩, ?_, ?_⟩
    · rw [persist_eq_lookupOr]
      unfold lookupOr
      rw [hdiff]
    · obtain ⟨bl, hbl, hsub⟩ := ih (by omega) i hi
      rw [persist_eq_lookupOr] at hbl
      intro x hx
      rw [levelValue, mem_unionList]
      refine ⟨bl, ?_, hsub hx⟩
      rw [List.mem_filterMap]
      refine ⟨⟨l, (rs + i) / B ^ l⟩, ?_, hbl⟩
      rw [mem_lower_level_positions]
      have hchild : (rs + i) / B ^ l / B = (rs + i) / B ^ (l + 1) := div_pow_succ B (rs + i) l
      have hbounds : (rs + i) / B ^ (l + 1) * B ≤ (rs + i) / B ^ l ∧
          (rs + i) / B ^ l < (rs + i) / B ^ (l + 1) * B + B :=
        (div_eq_iff_bounds B _ _ hB).1 hchild
      exact ⟨(rs + i) / B ^ l - (rs + i) / B ^ (l + 1) * B, by omega, by
        simp only [position_level, position_index]
        congr 1
        omega⟩

/-- Search over the persisted `replace` diff, on the query range
`[rs, rs + len - 1]`: a `blocks` call on a covered slot reports exactly
the inserted numbers beneath that slot whose new bloom contains the
query. -/
theorem replace_search (B L : Nat) (db : DB) (rs re : Nat) (blooms : List Bloom) (q : Bloom)
    (hB : 1 ≤ B) (hlen : 1 ≤ blooms.length) :
    ∀ l, l < L → ∀ j, (∃ i < blooms.length, (rs + i) / B ^ l = j) → ∀ n,
      n ∈ (blocks B (persist db (replace B L db rs re blooms)) rs
          (rs + blooms.length - 1) q l (j * B ^ l)).getD [] ↔
        rs ≤ n ∧ n ≤ rs + blooms.length - 1 ∧ n / B ^ l = j ∧
          q ⊆ blooms.getD (n - rs) ∅ := by
  intro l
  induction l with
  | zero =>
    intro hL j hj n
    obtain ⟨i, hi, hij⟩ := hj
    rw [pow_zero, Nat.div_one] at hij
    have ho : j * B ^ 0 = j := by rw [pow_zero, mul_one]
    rw [ho, mem_blocks_zero, position_zero]
    have hdb : persist db (replace B L db rs re blooms) ⟨0, j⟩ =
        some (blooms.getD (j - rs) ∅) := by
      rw [persist_eq_lookupOr]
      unfold lookupOr
      rw [replace_low, if_pos (by omega)]
    constructor
    · rintro ⟨lb, hlb, hq, rfl⟩
      rw [hdb] at hlb
      injection hlb with hlb
      subst hlb
      refine ⟨by omega, by omega, by rw [pow_zero, Nat.div_one], hq⟩
    · rintro ⟨hn1, hn2, hn3, hq⟩
      rw [pow_zero, Nat.div_one] at hn3
      subst hn3
      exact ⟨blooms.getD (n - rs) ∅, hdb, hq, rfl⟩
  | succ l ih =>
    intro hL j hj n
    have hpowpos : 0 < B ^ (l + 1) := Nat.pos_pow_of_pos (l + 1) hB
    have ho : j * B ^ (l + 1) / B ^ (l + 1) = j := Nat.mul_div_cancel j hpowpos
    have hpos2 : position B (j * B ^ (l + 1)) (l + 1) = ⟨l + 1, j⟩ := by
      simp [position, level_size, ho]
    have hdiffv : replace B L db rs re blooms ⟨l + 1, j⟩ =
        some (levelValue B db (replace B L db rs re blooms) ⟨l + 1, j⟩) :=
      replace_some_covered B L db rs re blooms (l + 1) j (by omega) (by omega) hj
    have hdbU : persist db (replace B L db rs re blooms) ⟨l + 1, j⟩ =
        some (levelValue B db (replace B L db rs re blooms) ⟨l + 1, j⟩) := by
      rw [persist_eq_lookupOr]
      unfold lookupOr
      rw [hdiffv]
    rw [mem_blocks_succ, hpos2]
    simp only [ho]
    constructor
    · rintro ⟨lb, hlb, hq, t, ht, h1, h2, hn⟩
      have hcovci : ∃ i' < blooms.length, (rs + i') / B ^ l = j * B + t := by
        obtain ⟨m, hm1, hm2, hm3⟩ := div_between (B ^ l) rs (rs + blooms.length - 1)
          (j * B + t) (Nat.pos_pow_of_pos l hB) (by omega) h1 h2
        exact ⟨m - rs, by omega, by rw [show rs + (m - rs) = m by omega]; exact hm3⟩
      have := (ih (by omega) (j * B + t) hcovci n).1 hn
      obtain ⟨hn1, hn2, hn3, hq'⟩ := this
      refine ⟨hn1, hn2, ?_, hq'⟩
      rw [← div_pow_succ, hn3, div_eq_iff_bounds B _ _ hB]
      omega
    · rintro ⟨hn1, hn2, hnj, hq⟩
      have hcib : n / B ^ l / B = j := by rw [div_pow_succ]; exact hnj
      have hbounds := (div_eq_iff_bounds B _ _ hB).1 hcib
      refine ⟨levelValue B db (replace B L db rs re blooms) ⟨l + 1, j⟩, hdbU, ?_,
        n / B ^ l - j * B, by omega, ?_, ?_, ?_⟩
      · -- the query is contained in the recomputed ancestor bloom
        obtain ⟨bl, hbl, hsub⟩ := replace_value_contains B L db rs re blooms hB
          (l + 1) hL (n - rs) (by omega)
        rw [show rs + (n - rs) = n by omega, hnj] at hbl
        rw [hdbU] at hbl
        injection hbl with hbl
        subst hbl
        exact hq.trans hsub
      · have : j * B + (n / B ^ l - j * B) = n / B ^ l := by omega
        rw [this]
        exact Nat.div_le_div_right hn1
      · have : j * B + (n / B ^ l - j * B) = n / B ^ l := by omega
        rw [this]
        exact Nat.div_le_div_right hn2
      · have heq : j * B + (n / B ^ l - j * B) = n / B ^ l := by omega
        rw [heq]
        have hcovci : ∃ i' < blooms.length, (rs + i') / B ^ l = n / B ^ l :=
          ⟨n - rs, by omega, by rw [show rs + (n - rs) = n by omega]⟩
        exact (ih (by omega) (n / B ^ l) hcovci n).2 ⟨hn1, hn2, rfl, hq⟩

theorem collectFuel_eq (f : Nat → Option (Option (List Nat))) (g : Nat → Option (List Nat))
    (l : List Nat) (h : ∀ o ∈ l, f o = some (g o)) : collectFuel f l = some (l.map g) := by
  induction l with
  | nil => rfl
  | cons o os ih =>
    rw [collectFuel, h o (List.mem_cons_self o os),
      ih (fun o' ho' => h o' (List.mem_cons_of_mem o ho')), List.map_cons]

theorem insertValue_getD (db : DB) (n : Nat) (b : Bloom) (B lvl : Nat) :
    insertValue db n b B lvl = (db (position B n lvl)).getD ∅ ∪ b := by
  unfold insertValue
  cases db (position B n lvl) with
  | none => simp
  | some old => simp

theorem mem_childUnionAll (B : Nat) (db : DB) (p : Position) (x : Nat) :
    x ∈ childUnionAll B db p ↔ ∃ t < B, x ∈ (db ⟨p.level - 1, p.index * B + t⟩).getD ∅ := by
  unfold childUnionAll
  rw [mem_unionList]
  constructor
  · rintro ⟨bl, hbl, hx⟩
    rw [List.mem_map] at hbl
    rcases hbl with ⟨c, hc, rfl⟩
    rcases (mem_lower_level_positions B p c).1 hc with ⟨t, ht, rfl⟩
    exact ⟨t, ht, hx⟩
  · rintro ⟨t, ht, hx⟩
    refine ⟨(db ⟨p.level - 1, p.index * B + t⟩).getD ∅, ?_, hx⟩
    rw [List.mem_map]
    exact ⟨⟨p.level - 1, p.index * B + t⟩,
      (mem_lower_level_positions B p _).2 ⟨t, ht, rfl⟩, rfl⟩

theorem childUnionAll_congr (B : Nat) (db db' : DB) (p : Position)
    (h : ∀ c ∈ lower_level_positions B p, db c = db' c) :
    childUnionAll B db p = childUnionAll B db' p := by
  unfold childUnionAll
  congr 1
  apply List.map_congr_left
  intro c hc
  rw [h c hc]

/-! ### Claim theorems -/

/-- C1.  Round trip: for every prior database state, inclusive range,
bloom list fitting in the range, and query bloom `q`, after the diff
returned by `replace` is persisted, `with_bloom` over the sub-range
`[rs, rs + len - 1]` returns, as a set, exactly the offsets `rs + i`
with `i < len` whose new bloom contains `q`.  (The case of an empty
bloom list with `rs = 0` is excluded: there the sub-range's upper bound
`rs + len - 1` underflows the unsigned Number type.) -/
theorem replace_with_bloom_round_trip (B L : Nat) (db : DB) (rs re : Nat)
    (blooms : List Bloom) (q : Bloom)
    (hB : 1 ≤ B) (hL : 1 ≤ L) (hfit : rs + blooms.length ≤ re + 1)
    (hne : 1 ≤ blooms.length ∨ 1 ≤ rs) :
    ∀ n, n ∈ with_bloom B L (persist db (replace B L db rs re blooms)) rs
        (rs + blooms.length - 1) q ↔
      ∃ i < blooms.length, n = rs + i ∧ q ⊆ blooms.getD i ∅ := by
  intro n
  rcases Nat.eq_zero_or_pos blooms.length with hlen0 | hlen
  · have hrs : 1 ≤ rs := by
      rcases hne with h | h
      · omega
      · exact h
    constructor
    · intro hn
      exfalso
      rw [mem_with_bloom] at hn
      obtain ⟨idx, h1, h2, hn⟩ := hn
      obtain ⟨hz, hrng⟩ := blocks_range_aux B _ rs (rs + blooms.length - 1) q (L - 1) _ n hn
      rcases Nat.eq_zero_or_pos (L - 1) with hL1 | hL1
      · rw [hL1, pow_zero, Nat.div_one] at h1 h2
        have hno := hz hL1
        rw [hL1, pow_zero, one_mul] at hno
        omega
      · have := hrng hL1
        omega
    · rintro ⟨i, hi, _⟩
      omega
  · rw [mem_with_bloom]
    have hpow : 0 < B ^ (L - 1) := Nat.pos_pow_of_pos (L - 1) hB
    constructor
    · rintro ⟨idx, h1, h2, hn⟩
      have hcov : ∃ i < blooms.length, (rs + i) / B ^ (L - 1) = idx := by
        obtain ⟨m, hm1, hm2, hm3⟩ := div_between (B ^ (L - 1)) rs
          (rs + blooms.length - 1) idx hpow (by omega) h1 (by omega)
        exact ⟨m - rs, by omega, by rw [show rs + (m - rs) = m by omega]; exact hm3⟩
      rw [mul_comm (B ^ (L - 1)) idx] at hn
      obtain ⟨hn1, hn2, _, hq⟩ :=
        (replace_search B L db rs re blooms q hB hlen (L - 1) (by omega) idx hcov n).1 hn
      exact ⟨n - rs, by omega, by omega, hq⟩
    · rintro ⟨i, hi, rfl, hq⟩
      refine ⟨(rs + i) / B ^ (L - 1), Nat.div_le_div_right (by omega), ?_, ?_⟩
      · have : (rs + i) / B ^ (L - 1) ≤ (rs + blooms.length - 1) / B ^ (L - 1) :=
          Nat.div_le_div_right (by omega)
        omega
      · rw [mul_comm (B ^ (L - 1)) ((rs + i) / B ^ (L - 1))]
        refine (replace_search B L db rs re blooms q hB hlen (L - 1) (by omega)
          ((rs + i) / B ^ (L - 1)) ⟨i, hi, rfl⟩ (rs + i)).2
          ⟨by omega, by omega, rfl, ?_⟩
        rw [show rs + i - rs = i by omega]
        exact hq

/-- C3.  Pruning correctness: if the stored bloom at slot `(l, j)` does
not contain the query bloom, no Number in the span
`[j * B^l, (j+1) * B^l - 1]` covered by that slot appears in the output
of `with_bloom`. -/
theorem pruning_correct (B L : Nat) (db : DB) (rs re : Nat) (q : Bloom) (l j : Nat)
    (s : Bloom) (hB : 1 ≤ B) (hl : l < L) (hs : db ⟨l, j⟩ = some s) (hnq : ¬ q ⊆ s)
    (n : Nat) (hn : n ∈ with_bloom B L db rs re q) :
    ¬ (j * B ^ l ≤ n ∧ n ≤ (j + 1) * B ^ l - 1) := by
  rintro ⟨hlo, hhi⟩
  rw [mem_with_bloom] at hn
  obtain ⟨idx, h1, h2, hn⟩ := hn
  obtain ⟨_, hpath⟩ := blocks_path_aux B db rs re q hB (L - 1) _ n hn
  obtain ⟨s', hs', hq'⟩ := hpath l (by omega)
  have hpp : 0 < B ^ l := Nat.pos_pow_of_pos l hB
  have hexp : (j + 1) * B ^ l = j * B ^ l + B ^ l := by ring
  have hnj : n / B ^ l = j := by
    rw [div_eq_iff_bounds (B ^ l) n j hpp]
    omega
  rw [hnj, hs] at hs'
  injection hs' with hs'
  subst hs'
  exact hnq hq'

/-- C4.  Range containment: `with_bloom` never returns a Number outside
the queried inclusive range. -/
theorem with_bloom_range_containment (B L : Nat) (db : DB) (rs re : Nat) (q : Bloom)
    (n : Nat) (hn : n ∈ with_bloom B L db rs re q) : rs ≤ n ∧ n ≤ re := by
  rw [mem_with_bloom] at hn
  obtain ⟨idx, h1, h2, hn⟩ := hn
  obtain ⟨hz, hrng⟩ := blocks_range_aux B db rs re q (L - 1) _ n hn
  rcases Nat.eq_zero_or_pos (L - 1) with hL1 | hL1
  · rw [hL1, pow_zero, Nat.div_one] at h1 h2
    have hno := hz hL1
    rw [hL1, pow_zero, one_mul] at hno
    omega
  · exact hrng hL1

/-- C5.  `insert` postcondition: the returned diff holds, at
`position n lvl` for every level `lvl < L`, the union of the database's
bloom there (default when absent) with the inserted bloom; those are its
only rows, and they number exactly `L`. -/
theorem insert_postcondition (B L : Nat) (db : DB) (n : Nat) (b : Bloom) :
    (∀ lvl < L, insert B L db n b (position B n lvl) =
        some ((db (position B n lvl)).getD ∅ ∪ b)) ∧
    (∀ p, (insert B L db n b p).isSome ↔ ∃ lvl < L, p = position B n lvl) ∧
    ((Finset.range L).image (fun lvl => position B n lvl)).card = L := by
  refine ⟨?_, ?_, ?_⟩
  · intro lvl hl
    rw [insert_hit B L db n b lvl hl, insertValue_getD]
  · intro p
    constructor
    · intro hp
      by_contra hno
      push_neg at hno
      rw [insert_frame B L db n b p hno] at hp
      simp at hp
    · rintro ⟨lvl, hl, rfl⟩
      rw [insert_hit B L db n b lvl hl]
      rfl
  · rw [Finset.card_image_of_injOn, Finset.card_range]
    intro x _ y _ hxy
    exact congrArg Position.level hxy

/-- C6.  `replace` leaves pure-reset ancestors untouched: at levels
`1 ≤ l < L` the returned diff holds exactly the positions covering the
inserted numbers `rs + i`, `i < len`; any higher-level position covering
no inserted number is absent from the diff, so persisting the diff
leaves the database unchanged there. -/
theorem replace_frame (B L : Nat) (db : DB) (rs re : Nat) (blooms : List Bloom) :
    (∀ l j, 1 ≤ l → l < L →
      ((replace B L db rs re blooms ⟨l, j⟩).isSome ↔
        ∃ i < blooms.length, position B (rs + i) l = ⟨l, j⟩)) ∧
    (∀ l j, 1 ≤ l → (∀ i < blooms.length, position B (rs + i) l ≠ ⟨l, j⟩) →
      persist db (replace B L db rs re blooms) ⟨l, j⟩ = db ⟨l, j⟩) := by
  have hposiff : ∀ i l j, position B (rs + i) l = (⟨l, j⟩ : Position) ↔ (rs + i) / B ^ l = j := by
    intro i l j
    unfold position level_size
    rw [Position.mk.injEq]
    simp
  constructor
  · intro l j hl1 hl2
    constructor
    · intro hp
      by_contra hno
      push_neg at hno
      rw [replace_none_uncovered B L db rs re blooms l j hl1 (by omega)
        (fun hcov => by
          rcases hcov with ⟨i, hi, hij⟩
          exact hno i hi ((hposiff i l j).2 hij))] at hp
      simp at hp
    · rintro ⟨i, hi, hpos⟩
      rw [replace_some_covered B L db rs re blooms l j hl1 (by omega)
        ⟨i, hi, (hposiff i l j).1 hpos⟩]
      rfl
  · intro l j hl1 hno
    rw [persist_eq_lookupOr]
    unfold lookupOr
    rcases Nat.lt_or_ge (L - 1) l with htop | hin
    · rw [replace_none_top B L db rs re blooms l j htop]
    · rw [replace_none_uncovered B L db rs re blooms l j hl1 hin
        (fun hcov => by
          rcases hcov with ⟨i, hi, hij⟩
          exact hno i hi ((hposiff i l j).2 hij))]

/-- C7.  `filter` output ordering: the returned sequence is strictly
ascending (hence duplicate free), and its underlying set is the union
over all candidate blooms of the `with_bloom` results. -/
theorem filter_sorted_and_union (B L : Nat) (db : DB) (rs re : Nat) (blooms : List Bloom) :
    List.Sorted (· < ·) (filter B L db rs re blooms) ∧
    (filter B L db rs re blooms).Nodup ∧
    ∀ n, n ∈ filter B L db rs re blooms ↔ ∃ b ∈ blooms, n ∈ with_bloom B L db rs re b := by
  refine ⟨Finset.sort_sorted_lt _, Finset.sort_nodup _ _, fun n => ?_⟩
  unfold filter
  rw [Finset.mem_sort, List.mem_toFinset, List.mem_flatMap]

/-- C8.  Absence prunes the subtree: when the database has no entry at
the slot addressed by a `blocks` call, the call reports no matches at
all, whatever the query bloom — including the default all-zero bloom. -/
theorem blocks_absent_prunes (B : Nat) (db : DB) (rs re : Nat) (q : Bloom) (l o : Nat)
    (h : db (position B o l) = none) : blocks B db rs re q l o = none := by
  cases l with
  | zero => rw [blocks, h]
  | succ l => rw [blocks, h]

/-- C9.  `blocks` terminates with recursion depth bounded by the level:
the fuel-indexed variant completes (recursion never bottoms out) as soon
as the fuel exceeds the starting level, so a call at `max_level = L - 1`
terminates within `L` nested levels; at level 0 no recursive call is
made, so fuel 1 already suffices there. -/
theorem blocksFuel_complete (B : Nat) (db : DB) (rs re : Nat) (q : Bloom) :
    ∀ l fuel o, l < fuel →
      blocksFuel B db rs re q fuel l o = some (blocks B db rs re q l o) := by
  intro l
  induction l with
  | zero =>
    intro fuel o hf
    cases fuel with
    | zero => omega
    | succ f =>
      cases hdb : db (position B o 0) with
      | none => simp [blocksFuel, blocks, hdb]
      | some lb => simp [blocksFuel, blocks, hdb]
  | succ l ih =>
    intro fuel o hf
    cases fuel with
    | zero => omega
    | succ f =>
      cases hdb : db (position B o (l + 1)) with
      | none => simp [blocksFuel, blocks, hdb]
      | some lb =>
        by_cases hq : q ⊆ lb
        · rw [blocksFuel, blocks]
          simp only [hdb, if_pos hq]
          rw [collectFuel_eq _ (blocks B db rs re q l) _
            (fun off _ => ih f off (by omega))]
          simp [List.filterMap_map, Function.comp]
        · simp [blocksFuel, blocks, hdb, hq]

/-- C10.  `replace` with more blooms than the range holds writes past
the range and resets nothing: when `rs + len > re`, the diff's level-0
rows are exactly the inserted numbers `rs + i` for `i < len` (even those
beyond `re`), each holding its new bloom, and no default-bloom reset row
exists since the reset span is empty. -/
theorem replace_overflow (B L : Nat) (db : DB) (rs re : Nat) (blooms : List Bloom)
    (hover : re + 1 ≤ rs + blooms.length) :
    (∀ i < blooms.length, replace B L db rs re blooms (position B (rs + i) 0) =
        some (blooms.getD i ∅)) ∧
    (∀ j, (replace B L db rs re blooms ⟨0, j⟩).isSome ↔ ∃ i < blooms.length, j = rs + i) := by
  constructor
  · intro i hi
    rw [position_zero, replace_low, if_pos (by omega), show rs + i - rs = i by omega]
  · intro j
    rw [replace_low]
    by_cases hins : rs ≤ j ∧ j < rs + blooms.length
    · rw [if_pos hins]
      constructor
      · intro _
        exact ⟨j - rs, by omega, by omega⟩
      · intro _
        rfl
    · rw [if_neg hins, if_neg (by omega)]
      constructor
      · intro h
        simp at h
      · rintro ⟨i, hi, rfl⟩
        omega

/-- C2, counterexample.  The aggregation invariant alone is not
preserved by `insert`: with `B = 2`, `L = 2`, a database holding only
the level-0 slot `(0,1) ↦ {0}` satisfies the invariant vacuously (no
level-1 slot is present), yet after persisting `insert 0 {1}` the
level-1 slot `(1,0)` holds `{1}` while its children hold `{1}` and
`{0}`: the parent misses bit `0`. -/
theorem insert_aggInv_counterexample :
    aggInv 2 2 (fun p => if p = (⟨0, 1⟩ : Position) then some ({0} : Bloom) else none) ∧
    ¬ aggInv 2 2 (persist (fun p => if p = (⟨0, 1⟩ : Position) then some ({0} : Bloom) else none)
        (insert 2 2 (fun p => if p = (⟨0, 1⟩ : Position) then some ({0} : Bloom) else none)
          0 {1})) := by
  constructor
  · intro l j hl _ hsome
    have hne : (⟨l, j⟩ : Position) ≠ (⟨0, 1⟩ : Position) := by
      intro h
      injection h with h1 h2
      omega
    simp [hne] at hsome
  · intro hinv
    have hsome : ((persist
        (fun p => if p = (⟨0, 1⟩ : Position) then some ({0} : Bloom) else none)
        (insert 2 2 (fun p => if p = (⟨0, 1⟩ : Position) then some ({0} : Bloom) else none)
          0 {1})) ⟨1, 0⟩).isSome := by decide
    have := hinv 1 0 (le_refl 1) (by omega) hsome
    revert this
    decide

/-- C2, amended.  Aggregation invariant preservation by `insert`, under
the additional (counterexample-forced) hypothesis that the prior
database is parent-closed: every present slot below the top level has a
present parent.  Then if every present slot above level 0 stores the
union of its children's blooms before the call, the same holds after
persisting the full diff returned by `insert`. -/
theorem insert_preserves_aggInv (B L : Nat) (db : DB) (n : Nat) (b : Bloom)
    (hB : 1 ≤ B) (hclosed : parentClosed B L db) (hinv : aggInv B L db) :
    aggInv B L (persist db (insert B L db n b)) := by
  intro l j hl hlL hsome
  obtain ⟨l', rfl⟩ : ∃ l', l = l' + 1 := ⟨l - 1, by omega⟩
  have hframe : ∀ lvl idx, (⟨lvl, idx⟩ : Position) ≠ position B n lvl →
      persist db (insert B L db n b) ⟨lvl, idx⟩ = db ⟨lvl, idx⟩ := by
    intro lvl idx hne
    rw [persist_eq_lookupOr]
    unfold lookupOr
    rw [insert_frame B L db n b ⟨lvl, idx⟩ (fun lvl' _ hp => by
      have hlv : lvl = lvl' := congrArg Position.level hp
      subst hlv
      exact hne hp)]
  have hhit : ∀ lvl, lvl < L →
      persist db (insert B L db n b) (position B n lvl) = some (insertValue db n b B lvl) := by
    intro lvl hlvl
    rw [persist_eq_lookupOr]
    unfold lookupOr
    rw [insert_hit B L db n b lvl hlvl]
  by_cases hj : j = n / B ^ (l' + 1)
  · subst hj
    have hposeq : position B n (l' + 1) = (⟨l' + 1, n / B ^ (l' + 1)⟩ : Position) := rfl
    rw [show (⟨l' + 1, n / B ^ (l' + 1)⟩ : Position) = position B n (l' + 1) from rfl,
      hhit (l' + 1) hlL]
    congr 1
    have hcB : n / B ^ l' / B = n / B ^ (l' + 1) := div_pow_succ B n l'
    have hcb := (div_eq_iff_bounds B (n / B ^ l') (n / B ^ (l' + 1)) hB).1 hcB
    have hchild_hit : persist db (insert B L db n b) ⟨l', n / B ^ l'⟩ =
        some (insertValue db n b B l') := by
      rw [show (⟨l', n / B ^ l'⟩ : Position) = position B n l' from rfl]
      exact hhit l' (by omega)
    have hchild_frame : ∀ idx, idx ≠ n / B ^ l' →
        persist db (insert B L db n b) ⟨l', idx⟩ = db ⟨l', idx⟩ := by
      intro idx hne
      exact hframe l' idx (fun hp => hne (congrArg Position.index hp))
    have hstep2 : (db ⟨l' + 1, n / B ^ (l' + 1)⟩).getD ∅ =
        childUnionAll B db ⟨l' + 1, n / B ^ (l' + 1)⟩ := by
      cases hdb : db ⟨l' + 1, n / B ^ (l' + 1)⟩ with
      | some old =>
        have := hinv (l' + 1) (n / B ^ (l' + 1)) (by omega) hlL (by rw [hdb]; rfl)
        rw [hdb] at this
        rw [Option.getD_some]
        exact Option.some.inj this
      | none =>
        have hchildnone : ∀ t < B, db ⟨l', n / B ^ (l' + 1) * B + t⟩ = none := by
          intro t ht
          by_contra hne
          have hne' : (db ⟨l', n / B ^ (l' + 1) * B + t⟩).isSome :=
            Option.ne_none_iff_isSome.1 hne
          have hpar := hclosed l' (n / B ^ (l' + 1) * B + t) (by omega) hne'
          have hdiv : (n / B ^ (l' + 1) * B + t) / B = n / B ^ (l' + 1) := by
            rw [div_eq_iff_bounds B _ _ hB]
            omega
          rw [hdiv, hdb] at hpar
          simp at hpar
        simp only [Option.getD_none]
        refine Eq.symm (Finset.eq_empty_of_forall_not_mem fun x hx => ?_)
        rw [mem_childUnionAll] at hx
        rcases hx with ⟨t, ht, hx⟩
        simp only [Nat.add_sub_cancel] at hx
        rw [hchildnone t ht] at hx
        simp at hx
    have hstep1 : childUnionAll B (persist db (insert B L db n b))
        ⟨l' + 1, n / B ^ (l' + 1)⟩ =
        childUnionAll B db ⟨l' + 1, n / B ^ (l' + 1)⟩ ∪ b := by
      ext x
      rw [Finset.mem_union, mem_childUnionAll, mem_childUnionAll]
      simp only [Nat.add_sub_cancel]
      constructor
      · rintro ⟨t, ht, hx⟩
        by_cases hct : n / B ^ (l' + 1) * B + t = n / B ^ l'
        · rw [hct, hchild_hit, Option.getD_some, insertValue_getD,
            show position B n l' = (⟨l', n / B ^ l'⟩ : Position) from rfl] at hx
          rcases Finset.mem_union.1 hx with hx | hx
          · exact Or.inl ⟨t, ht, by rw [hct]; exact hx⟩
          · exact Or.inr hx
        · rw [hchild_frame _ hct] at hx
          exact Or.inl ⟨t, ht, hx⟩
      · rintro (⟨t, ht, hx⟩ | hxb)
        · by_cases hct : n / B ^ (l' + 1) * B + t = n / B ^ l'
          · refine ⟨t, ht, ?_⟩
            rw [hct, hchild_hit, Option.getD_some, insertValue_getD,
              show position B n l' = (⟨l', n / B ^ l'⟩ : Position) from rfl]
            rw [hct] at hx
            exact Finset.mem_union_left _ hx
          · exact ⟨t, ht, by rw [hchild_frame _ hct]; exact hx⟩
        · refine ⟨n / B ^ l' - n / B ^ (l' + 1) * B, by omega, ?_⟩
          rw [show n / B ^ (l' + 1) * B + (n / B ^ l' - n / B ^ (l' + 1) * B) = n / B ^ l'
              by omega,
            hchild_hit, Option.getD_some, insertValue_getD]
          exact Finset.mem_union_right _ hxb
    rw [insertValue_getD,
      show position B n (l' + 1) = (⟨l' + 1, n / B ^ (l' + 1)⟩ : Position) from rfl,
      hstep2, hstep1]
  · have hne : (⟨l' + 1, j⟩ : Position) ≠ position B n (l' + 1) := by
      intro hp
      exact hj (congrArg Position.index hp)
    rw [hframe (l' + 1) j hne] at hsome ⊢
    have hchildsame : ∀ ch ∈ lower_level_positions B ⟨l' + 1, j⟩,
        persist db (insert B L db n b) ch = db ch := by
      intro ch hch
      rcases (mem_lower_level_positions B _ ch).1 hch with ⟨t, ht, rfl⟩
      simp only [Nat.add_sub_cancel]
      apply hframe
      intro hp
      apply hj
      have hidx : j * B + t = n / B ^ l' := congrArg Position.index hp
      have hdivj : (j * B + t) / B = j := by
        rw [div_eq_iff_bounds B _ _ hB]
        omega
      rw [hidx, div_pow_succ] at hdivj
      exact hdivj.symm
    rw [childUnionAll_congr B (persist db (insert B L db n b)) db ⟨l' + 1, j⟩ hchildsame]
    exact hinv (l' + 1) j (by omega) hlL hsome

/-! ### Witnesses -/

theorem replace_with_bloom_round_trip_witness :
    1 ∈ with_bloom 2 2 (persist (fun _ => none) (replace 2 2 (fun _ => none) 1 3
        [({5} : Bloom), {7}])) 1 2 {5} :=
  (replace_with_bloom_round_trip 2 2 (fun _ => none) 1 3 [{5}, {7}] {5}
    (by decide) (by decide) (by decide) (Or.inl (by decide)) 1).2
    ⟨0, by decide, by decide, by decide⟩

theorem insert_preserves_aggInv_witness :
    aggInv 2 2 (persist (fun _ => none) (insert 2 2 (fun _ => none) 0 {1})) :=
  insert_preserves_aggInv 2 2 (fun _ => none) 0 {1} (by decide)
    (fun _ _ _ hs => by simp at hs) (fun _ _ _ _ hs => by simp at hs)

theorem pruning_correct_witness :
    ¬ ((1 : Nat) * 2 ^ 0 ≤ 0 ∧ 0 ≤ (1 + 1) * 2 ^ 0 - 1) :=
  pruning_correct 2 2
    (fun p => if p = (⟨1, 0⟩ : Position) then some ({1} ∪ {2} : Bloom)
      else if p = (⟨0, 0⟩ : Position) then some ({1} : Bloom)
      else if p = (⟨0, 1⟩ : Position) then some ({2} : Bloom) else none)
    0 1 {1} 0 1 {2} (by decide) (by decide) (by decide) (by decide) 0 (by decide)

theorem with_bloom_range_containment_witness :
    5 ∈ with_bloom 2 1 (fun p => if p = (⟨0, 5⟩ : Position) then some (∅ : Bloom) else none)
        5 9 ∅ ∧ (5 ≤ 5 ∧ 5 ≤ 9) :=
  ⟨by decide, with_bloom_range_containment 2 1
    (fun p => if p = (⟨0, 5⟩ : Position) then some (∅ : Bloom) else none) 5 9 ∅ 5 (by decide)⟩

theorem insert_postcondition_witness :
    0 < 2 ∧ insert 2 2 (fun _ => none) 5 ({3} : Bloom) (position 2 5 0) =
      some ((((fun _ => none) : DB) (position 2 5 0)).getD ∅ ∪ {3}) :=
  ⟨by decide, (insert_postcondition 2 2 (fun _ => none) 5 {3}).1 0 (by decide)⟩

theorem replace_frame_witness :
    (∀ i < [({1} : Bloom)].length, position 2 (0 + i) 1 ≠ (⟨1, 7⟩ : Position)) ∧
    persist (fun p => if p = (⟨1, 7⟩ : Position) then some ({4} : Bloom) else none)
        (replace 2 2 (fun p => if p = (⟨1, 7⟩ : Position) then some ({4} : Bloom) else none)
          0 3 [{1}]) ⟨1, 7⟩ =
      (fun p => if p = (⟨1, 7⟩ : Position) then some ({4} : Bloom) else none) ⟨1, 7⟩ :=
  ⟨by decide, (replace_frame 2 2
    (fun p => if p = (⟨1, 7⟩ : Position) then some ({4} : Bloom) else none) 0 3 [{1}]).2
    1 7 (by decide) (by decide)⟩

theorem filter_sorted_and_union_witness :
    List.Sorted (· < ·) (filter 2 2 (fun _ => none) 0 3 [({1} : Bloom)]) :=
  (filter_sorted_and_union 2 2 (fun _ => none) 0 3 [{1}]).1

theorem blocks_absent_prunes_witness :
    ((fun _ => none : DB) (position 2 0 1) = none) ∧
    blocks 2 (fun _ => none) 0 3 (∅ : Bloom) 1 0 = none :=
  ⟨rfl, blocks_absent_prunes 2 (fun _ => none) 0 3 ∅ 1 0 rfl⟩

theorem blocksFuel_complete_witness :
    1 < 2 ∧ blocksFuel 2
        (fun p => if p = (⟨0, 0⟩ : Position) then some (∅ : Bloom) else none) 0 3 ∅ 2 1 0 =
      some (blocks 2
        (fun p => if p = (⟨0, 0⟩ : Position) then some (∅ : Bloom) else none) 0 3 ∅ 1 0) :=
  ⟨by decide, blocksFuel_complete 2
    (fun p => if p = (⟨0, 0⟩ : Position) then some (∅ : Bloom) else none) 0 3 ∅ 1 2 0
    (by decide)⟩

theorem replace_overflow_witness :
    3 + 1 ≤ 2 + [({1} : Bloom), {2}, {3}].length ∧
    ((replace 2 2 (fun _ => none) 2 3 [({1} : Bloom), {2}, {3}] ⟨0, 4⟩).isSome ↔
      ∃ i < [({1} : Bloom), {2}, {3}].length, 4 = 2 + i) :=
  ⟨by decide, (replace_overflow 2 2 (fun _ => none) 2 3 [{1}, {2}, {3}] (by decide)).2 4⟩

end BloomChain
